import Mathlib

/-!
Verification of the rx-scanner reconciliation engine.

The Python engine (src/rx_scanner/utils/ocr_processor.py and
src/rx_scanner/utils/text_utils.py) is shallowly embedded here.  Python
strings are sequences of Unicode code points, so they are modelled as
`List Nat`; string literals enter through `toCP`.  The medicine index
(DatabaseManager.search_medicines / get_medicine_alternatives) is an external
collaborator of the engine and is modelled as an oracle parameter returning
`Except Unit` values, so that the engine's try/except error containment can be
stated over every possible index behaviour.  Floats carrying confidence
scores and parsed strength values take only small decimal values in the code
(0.70/0.80/0.90/1.00 and short decimal literals), which are represented
exactly here by rationals.  Recursions that walk a string by more than one
code point per step are written with explicit fuel (always instantiated with
a sufficient bound) so every definition reduces in the kernel.
-/

namespace RxScanner

/-- A Python string, as its list of Unicode code points. -/
abbrev Str := List Nat

/-- Code points of a Lean string literal. -/
def toCP (s : String) : Str := s.data.map Char.toNat

/-- Hiragana block test used by `normalize_to_katakana` (U+3041–U+3096). -/
def isHiragana (c : Nat) : Bool := 0x3041 ≤ c && c ≤ 0x3096

/-- Per-code-point action of `normalize_to_katakana`. -/
def normChar (c : Nat) : Nat := if isHiragana c then c + 0x60 else c

/-- Embeds `text_utils.normalize_to_katakana`: each hiragana code point is
shifted by +0x60, every other code point is kept. -/
def normalize_to_katakana (text : Str) : Str := text.map normChar

/-- Python substring test `needle in hay`. -/
def isSub (needle hay : Str) : Bool :=
  (List.range (hay.length + 1)).any fun i =>
    needle == (hay.drop i).take needle.length

/-- ASCII digit 0-9. -/
def isAsciiDigit (c : Nat) : Bool := 0x30 ≤ c && c ≤ 0x39

/-- Full-width digit ０-９ (U+FF10–U+FF19). -/
def isFullwidthDigit (c : Nat) : Bool := 0xFF10 ≤ c && c ≤ 0xFF19

/-- Digit class of the spec regex `[\d０-９]`.  Python's `\d` matches any
Unicode decimal digit; the prescription texts and every translate table in
the code contain only ASCII and full-width digits, the two ranges modelled
here. -/
def isSpecDigit (c : Nat) : Bool := isAsciiDigit c || isFullwidthDigit c

/-- The `str.translate(str.maketrans("０１２３４５６７８９．", "0123456789."))`
character map used throughout the engine. -/
def toHalfwidth (c : Nat) : Nat :=
  if isFullwidthDigit c then c - 0xFEE0
  else if c = 0xFF0E then 0x2E
  else c

/-- Python `str.replace(pat, rep)` (all occurrences, scanned left to right,
non-overlapping), with fuel; every step consumes at least one code point, so
`s.length` fuel is always enough and the fuel-0 branch is unreachable at the
call sites below. -/
def replaceAllF (pat rep : Str) : Nat → Str → Str
  | 0, s => s
  | _ + 1, [] => []
  | fuel + 1, c :: rest =>
    if pat ≠ [] ∧ pat = (c :: rest).take pat.length then
      rep ++ replaceAllF pat rep fuel ((c :: rest).drop pat.length)
    else
      c :: replaceAllF pat rep fuel rest

/-- Python `s.replace(pat, rep)`. -/
def replaceAll (pat rep s : Str) : Str := replaceAllF pat rep s.length s

/-- The list `OCRProcessor.DOSAGE_FORMS`, in source order. -/
def DOSAGE_FORMS : List Str :=
  [toCP "錠", toCP "ＯＤ錠", toCP "OD錠", toCP "カプセル", toCP "細粒",
   toCP "顆粒", toCP "散", toCP "シロップ", toCP "ドライシロップ",
   toCP "ＤＳ", toCP "DS", toCP "懸濁", toCP "ゼリー", toCP "チュアブル",
   toCP "トローチ", toCP "ＯＤフィルム", toCP "ODフィルム", toCP "注",
   toCP "液", toCP "点眼", toCP "軟膏", toCP "クリーム", toCP "点鼻",
   toCP "坐剤", toCP "坐薬", toCP "吸入", toCP "吸入用", toCP "貼付",
   toCP "点耳"]

/-- The list `OCRProcessor.STOP_WORDS`. -/
def STOP_WORDS : List Str := [toCP "キット", toCP "セット", toCP "バッグ"]

/-- The unit alternation of the spec regex, in alternation order:
`mg|ｍｇ|g|ｇ|mL|ｍＬ|ml|μg|μｇ|％|%`. -/
def UNITS : List Str :=
  [toCP "mg", toCP "ｍｇ", toCP "g", toCP "ｇ", toCP "mL", toCP "ｍＬ",
   toCP "ml", toCP "μg", toCP "μｇ", toCP "％", toCP "%"]

/-- The `[．.]` class of the spec regex. -/
def isSpecDot (c : Nat) : Bool := c = 0xFF0E || c = 0x2E

/-- First unit of the alternation matching at the front of `s` (regex
alternations try branches left to right). -/
def matchUnitAt (s : Str) : Option Str :=
  UNITS.findSome? fun u => if u == s.take u.length then some u else none

/-- Attempt of the spec regex
`([\d０-９]+(?:[．.][\d０-９]+)?(?:mg|ｍｇ|g|ｇ|mL|ｍＬ|ml|μg|μｇ|％|%))`
at the front of `s`, returning the matched text.  The digit runs are greedy;
since no unit and no dot starts with a digit, greediness never needs to be
undone, and the only backtracking point is giving up the optional decimal
part when no unit follows it. -/
def matchSpecAt (s : Str) : Option Str :=
  let d := s.takeWhile isSpecDigit
  if d.isEmpty then none
  else
    let r1 := s.dropWhile isSpecDigit
    let noDecimal : Option Str := (matchUnitAt r1).map fun u => d ++ u
    match r1 with
    | [] => noDecimal
    | dot :: r2 =>
      if isSpecDot dot then
        let d2 := r2.takeWhile isSpecDigit
        if d2.isEmpty then noDecimal
        else
          match matchUnitAt (r2.dropWhile isSpecDigit) with
          | some u => some (d ++ dot :: (d2 ++ u))
          | none => noDecimal
      else noDecimal

/-- Leftmost match of the spec regex: `re.findall` scans start positions left
to right, so the first element of `found_specs` is the match at the smallest
starting position. -/
def findFirstSpecMatch : Str → Option Str
  | [] => none
  | c :: rest =>
    match matchSpecAt (c :: rest) with
    | some m => some m
    | none => findFirstSpecMatch rest

/-- The half-width normalization applied to each extracted spec in
`_extract_dosage_forms_and_specs` (replacements in source order, then the
digit translate table). -/
def normalizeSpecText (s : Str) : Str :=
  (replaceAll (toCP "％") (toCP "%")
    (replaceAll (toCP "ｇ") (toCP "g")
      (replaceAll (toCP "ｍＬ") (toCP "mL")
        (replaceAll (toCP "ｍｇ") (toCP "mg") s)))).map toHalfwidth

/-- Python `max(l, key=len)` on a nonempty list: the first element of maximal
length. -/
def maxByLen : List Str → Str
  | [] => []
  | x :: xs => xs.foldl (fun best y => if best.length < y.length then y else best) x

/-- Result record of `_extract_dosage_forms_and_specs`. -/
structure DosageSpecInfo where
  forms : List Str
  specs : List Str
deriving Repr, DecidableEq

/-- Embeds `_extract_dosage_forms_and_specs`: all dosage forms occurring as
substrings are collected in list order and reduced to the longest one, and
the first (leftmost) spec-regex match is kept, half-width normalized. -/
def extractDosageFormsAndSpecs (text : Str) : DosageSpecInfo :=
  let found_forms := DOSAGE_FORMS.filter fun f => isSub f text
  let forms := if found_forms.isEmpty then found_forms else [maxByLen found_forms]
  let specs :=
    match findFirstSpecMatch text with
    | some m => [normalizeSpecText m]
    | none => []
  ⟨forms, specs⟩

/-- Character class of the token regex
`[ア-ンヴガ-ゴザ-ゾダ-ドバ-ボパ-ポヤャユュヨョワヮヰヱヲッー一-龯]+`
(the explicit singletons and voiced ranges are all contained in ア-ン and are
kept as written). -/
def isTokenChar (c : Nat) : Bool :=
  (0x30A2 ≤ c && c ≤ 0x30F3) || c = 0x30F4 ||
  (0x30AC ≤ c && c ≤ 0x30B4) || (0x30B6 ≤ c && c ≤ 0x30BE) ||
  (0x30C0 ≤ c && c ≤ 0x30C9) || (0x30D0 ≤ c && c ≤ 0x30DC) ||
  (0x30D1 ≤ c && c ≤ 0x30DD) ||
  c = 0x30E4 || c = 0x30E3 || c = 0x30E6 || c = 0x30E5 ||
  c = 0x30E8 || c = 0x30E7 || c = 0x30EF || c = 0x30EE ||
  c = 0x30F0 || c = 0x30F1 || c = 0x30F2 || c = 0x30C3 ||
  c = 0x30FC || (0x4E00 ≤ c && c ≤ 0x9FAF)

/-- Maximal runs of token characters (`re.findall` of the class above), with
fuel; each step consumes at least one code point. -/
def tokenizeF : Nat → Str → List Str
  | 0, _ => []
  | _ + 1, [] => []
  | fuel + 1, c :: rest =>
    if isTokenChar c then
      (c :: rest.takeWhile isTokenChar) :: tokenizeF fuel (rest.dropWhile isTokenChar)
    else
      tokenizeF fuel rest

/-- All maximal katakana/kanji runs of a line. -/
def tokenize (s : Str) : List Str := tokenizeF s.length s

/-- The `words` list of `_match_with_database`: token runs of length ≥ 3. -/
def extractWords (text : Str) : List Str :=
  (tokenize text).filter fun w => 3 ≤ w.length

/-- A record returned by the medicine index, with the fields the engine
reads.  `is_similarity_match` models the optional dict key of the same name:
`none` when the key is absent (every index row), `some true` after the fuzzy
finder sets it. -/
structure DBRecord where
  medicine_name : Str
  ingredient_name : Str
  specification : Str
  manufacturer : Str
  medicine_type : Str
  price : ℚ
  is_similarity_match : Option Bool
deriving Repr, DecidableEq

/-- The index search oracle (`db_manager.search_medicines(query, limit)`),
which may fail on any call. -/
abbrev SearchOracle := Str → Nat → Except Unit (List DBRecord)

/-- Length of a longest common subsequence, with fuel; `lcsLen` instantiates
the fuel with the sum of lengths, which always suffices. -/
def lcsLenF : Nat → Str → Str → Nat
  | 0, _, _ => 0
  | _ + 1, [], _ => 0
  | _ + 1, _ :: _, [] => 0
  | fuel + 1, a :: ta, b :: tb =>
    if a = b then lcsLenF fuel ta tb + 1
    else max (lcsLenF fuel (a :: ta) tb) (lcsLenF fuel ta (b :: tb))

def lcsLen (s t : Str) : Nat := lcsLenF (s.length + t.length) s t

/-- Embeds `_calculate_similarity`: rapidfuzz `fuzz.ratio` is the normalized
InDel similarity `(|s1|+|s2| - dist_indel)/(|s1|+|s2|) = 2·lcs/(|s1|+|s2|)`,
divided by 100 in the code to land in [0,1]; empty input short-circuits
to 0. -/
def calculate_similarity (s1 s2 : Str) : ℚ :=
  if s1 = [] ∨ s2 = [] then 0
  else mkRat (2 * (lcsLen s1 s2 : Int)) (s1.length + s2.length)

/-- Embeds `_search_by_similarity`.  The Python default argument
`min_similarity=0.70` is passed explicitly by every caller of this model.
A failing index call is caught and turned into an empty result. -/
def search_by_similarity (search : SearchOracle) (min_similarity : ℚ)
    (keyword : Str) : List DBRecord :=
  if keyword.length < 7 then []
  else
    match search (keyword.take 3) 100 with
    | .error _ => []
    | .ok candidates =>
      candidates.filterMap fun c =>
        let keyword_len := keyword.length
        let ingredient_similarity :=
          calculate_similarity keyword (c.ingredient_name.take keyword_len)
        let medicine_similarity :=
          calculate_similarity keyword (c.medicine_name.take keyword_len)
        let similarity := max ingredient_similarity medicine_similarity
        if min_similarity ≤ similarity then
          some { c with is_similarity_match := some true }
        else none

/-- Truthiness of `result.get("is_similarity_match")`: the key must be
present and hold `True`. -/
def truthyFlag (r : DBRecord) : Bool := r.is_similarity_match == some true

/-- The medicine-name normalization inside `_match_with_database`
(replacements in source order, then the digit translate table). -/
def normalizeMedicineName (s : Str) : Str :=
  (replaceAll (toCP "％") (toCP "%")
    (replaceAll (toCP "ｍＬ") (toCP "mL")
      (replaceAll (toCP "ｇ") (toCP "g")
        (replaceAll (toCP "ｍｇ") (toCP "mg") s)))).map toHalfwidth

/-- The `(?<![0-9.])` lookbehind class. -/
def isLookbehindChar (c : Nat) : Bool := isAsciiDigit c || c = 0x2E

/-- Embeds `re.search(r"(?<![0-9.])" + re.escape(spec), s)`: some occurrence of the
literal `spec` whose preceding code point (if any) is not a half-width digit
or dot. -/
def specSearchHit (spec s : Str) : Bool :=
  (List.range (s.length + 1)).any fun i =>
    (spec == (s.drop i).take spec.length) &&
    (decide (i = 0) || !isLookbehindChar (s.getD (i - 1) 0))

/-- Dosage-form corroboration: `ocr_forms and ocr_forms[0] in medicine_name`. -/
def formMatches (ocr_forms : List Str) (medicine_name : Str) : Bool :=
  match ocr_forms with
  | [] => false
  | f :: _ => isSub f medicine_name

/-- Strength corroboration: the lookbehind-guarded regex search of
`ocr_specs[0]` inside the half-width-normalized medicine name. -/
def specMatches (ocr_specs : List Str) (medicine_name : Str) : Bool :=
  match ocr_specs with
  | [] => false
  | sp :: _ => specSearchHit sp (normalizeMedicineName medicine_name)

/-- Both corroborations at once (`form_match and spec_match`). -/
def corroborates (info : DosageSpecInfo) (medicine_name : Str) : Bool :=
  formMatches info.forms medicine_name && specMatches info.specs medicine_name

/-- The four confidence tiers of `_match_with_database`, in priority order;
`none` corresponds to the `continue` that discards the pair. -/
def baseConfidence (word : Str) (r : DBRecord) : Option ℚ :=
  if word = r.medicine_name then some 1
  else if word = r.ingredient_name then some (mkRat 8 10)
  else if isSub word r.medicine_name || isSub word r.ingredient_name then
    some (mkRat 7 10)
  else if truthyFlag r then some (mkRat 7 10)
  else none

/-- The per-(token, candidate) confidence scoring of `_match_with_database`:
the four tiers in priority order, the upgrade to 0.90 when the base is below
1.00 and both form and spec corroborate, and the final ≥ 0.70 admission
filter. `none` means the pair is discarded. -/
def scoreCandidate (info : DosageSpecInfo) (word : Str) (r : DBRecord) :
    Option ℚ :=
  match baseConfidence word r with
  | none => none
  | some c =>
    let c2 := if c < 1 ∧ corroborates info r.medicine_name = true then
        mkRat 9 10
      else c
    if mkRat 7 10 ≤ c2 then some c2 else none

/-- A match dict appended by `_match_with_database`.  The dict literal in the
source carries exactly the keys below; in particular it has no
`is_similarity_match` key, which the optional field records as `none`. -/
structure MatchRec where
  medicine_name : Str
  ingredient_name : Str
  specification : Str
  manufacturer : Str
  medicine_type : Str
  price : ℚ
  confidence : ℚ
  matched_word : Str
  is_similarity_match : Option Bool
deriving Repr, DecidableEq

/-- The match dict built from token `word`, candidate `r` and confidence `c`. -/
def mkMatch (word : Str) (r : DBRecord) (c : ℚ) : MatchRec :=
  { medicine_name := r.medicine_name
    ingredient_name := r.ingredient_name
    specification := r.specification
    manufacturer := r.manufacturer
    medicine_type := r.medicine_type
    price := r.price
    confidence := c
    matched_word := word
    is_similarity_match := none }

/-- All matches one token contributes, over its candidate list. -/
def scoreWord (info : DosageSpecInfo) (word : Str) (rs : List DBRecord) :
    List MatchRec :=
  rs.filterMap fun r => (scoreCandidate info word r).map (mkMatch word r)

/-- The token loop of `_match_with_database`: stop words are skipped, the
index is queried with limit 5, fuzzy candidates are appended for tokens of
length ≥ 7, and an index failure propagates to the surrounding handler. -/
def matchLoop (search : SearchOracle) (info : DosageSpecInfo) :
    List Str → Except Unit (List MatchRec)
  | [] => .ok []
  | w :: ws =>
    if w ∈ STOP_WORDS then matchLoop search info ws
    else
      match search w 5 with
      | .error e => .error e
      | .ok results =>
        let results :=
          if 7 ≤ w.length then
            results ++ search_by_similarity search (mkRat 7 10) w
          else results
        match matchLoop search info ws with
        | .error e => .error e
        | .ok rest => .ok (scoreWord info w results ++ rest)

/-- Embeds `_match_with_database` (database-present mode): any exception in
the body is caught and turned into an empty match list. -/
def match_with_database (search : SearchOracle) (text : Str) : List MatchRec :=
  match matchLoop search (extractDosageFormsAndSpecs text) (extractWords text) with
  | .ok ms => ms
  | .error _ => []

/-- Digit run to a natural number. -/
def digitsToNat (d : Str) : Nat := d.foldl (fun acc c => acc * 10 + (c - 0x30)) 0

/-- Value of the regex `(\d+(?:\.\d+)?)` matched at the front of `s`
(half-width digits only: `_extract_spec_value` translates full-width digits
away first). -/
def parseNumberAt (s : Str) : Option ℚ :=
  let d := s.takeWhile isAsciiDigit
  if d.isEmpty then none
  else
    let intPart : ℚ := (digitsToNat d : ℚ)
    match s.dropWhile isAsciiDigit with
    | [] => some intPart
    | dot :: r2 =>
      if dot = 0x2E then
        let d2 := r2.takeWhile isAsciiDigit
        if d2.isEmpty then some intPart
        else
          some (mkRat (digitsToNat d * 10 ^ d2.length + digitsToNat d2)
            (10 ^ d2.length))
      else some intPart

/-- Leftmost match of `(\d+(?:\.\d+)?)`. -/
def firstNumberMatch : Str → Option ℚ
  | [] => none
  | c :: rest =>
    if isAsciiDigit c then parseNumberAt (c :: rest)
    else firstNumberMatch rest

/-- Embeds `_extract_spec_value`: translate full-width digits, parse the
first number, `float("inf")` (here `⊤`) when no number occurs.  Python
converts the literal to a float; the short decimal strengths compared by the
engine are represented exactly by rationals. -/
def extract_spec_value (specification : Str) : WithTop ℚ :=
  match firstNumberMatch (specification.map toHalfwidth) with
  | some q => (q : WithTop ℚ)
  | none => ⊤

/-- Python-dict lookup in an insertion-ordered association list. -/
def dictGet {κ α : Type} [DecidableEq κ] (d : List (κ × α)) (k : κ) : Option α :=
  d.findSome? fun e => if e.1 = k then some e.2 else none

/-- Python-dict value update: the entry keeps its position. -/
def dictSet {κ α : Type} [DecidableEq κ] (d : List (κ × α)) (k : κ) (v : α) :
    List (κ × α) :=
  d.map fun e => if e.1 = k then (k, v) else e

/-- Stage A of `_select_best_medicine_per_ingredient`: key
`(ingredient_name, specification)`, keep the entry with strictly higher
confidence (first seen wins ties). -/
def stageAStep (d : List ((Str × Str) × MatchRec)) (m : MatchRec) :
    List ((Str × Str) × MatchRec) :=
  let k := (m.ingredient_name, m.specification)
  match dictGet d k with
  | none => d ++ [(k, m)]
  | some existing =>
    if existing.confidence < m.confidence then dictSet d k m else d

/-- The Stage-B replacement test, as written in
`_select_best_medicine_per_ingredient`: strictly higher confidence, or equal
confidence and a strictly smaller leading spec value. -/
def replaceCond (existing m : MatchRec) : Prop :=
  existing.confidence < m.confidence ∨
    (m.confidence = existing.confidence ∧
      extract_spec_value m.specification <
        extract_spec_value existing.specification)

instance (existing m : MatchRec) : Decidable (replaceCond existing m) :=
  inferInstanceAs (Decidable (existing.confidence < m.confidence ∨
    (m.confidence = existing.confidence ∧
      extract_spec_value m.specification <
        extract_spec_value existing.specification)))

/-- Stage B of `_select_best_medicine_per_ingredient`: key
`ingredient_name`; replace when `replaceCond` holds. -/
def stageBStep (d : List (Str × MatchRec)) (m : MatchRec) :
    List (Str × MatchRec) :=
  match dictGet d m.ingredient_name with
  | none => d ++ [(m.ingredient_name, m)]
  | some existing =>
    if replaceCond existing m then dictSet d m.ingredient_name m else d

/-- Embeds `_select_best_medicine_per_ingredient`: Stage A over the matches,
then Stage B over Stage A's values (Python dicts iterate in insertion
order). -/
def select_best_medicine_per_ingredient (medicines : List MatchRec) :
    List MatchRec :=
  if medicines = [] then []
  else
    let by_ingredient_and_spec := medicines.foldl stageAStep []
    (((by_ingredient_and_spec.map Prod.snd).foldl stageBStep []).map Prod.snd)

/-- The alternatives oracle
(`db_manager.get_medicine_alternatives(ingredient_name, exclude)`), which may
fail on any call. -/
abbrev AltOracle := Str → Str → Except Unit (List DBRecord)

/-- A medicine dict after `_enrich_medicine_data`.  `base` is the copied
match dict; the three `Option` fields model the keys the enrichment loop
adds, left `none` on the exception fallback path that returns the original
dicts. -/
structure EnrichedMedicine where
  base : MatchRec
  has_alternatives : Option Bool
  alternative_medicines : Option (List DBRecord)
  display_name : Option Str
deriving Repr, DecidableEq

/-- Enrichment of one medicine given its fetched alternatives list: the
display-name rule of `_enrich_medicine_data`. -/
def enrichOneWith (alternatives : List DBRecord) (m : MatchRec) :
    EnrichedMedicine :=
  let has_alternatives : Bool := decide (0 < alternatives.length)
  let display_name :=
    if mkRat 9 10 ≤ m.confidence then m.medicine_name
    else if has_alternatives = false then m.medicine_name
    else m.ingredient_name
  ⟨m, some has_alternatives, some alternatives, some display_name⟩

/-- The enrichment loop: one alternatives query per medicine, failures
propagate to the surrounding handler. -/
def enrichLoop (alts : AltOracle) : List MatchRec →
    Except Unit (List EnrichedMedicine)
  | [] => .ok []
  | m :: ms =>
    match alts m.ingredient_name m.medicine_name with
    | .error e => .error e
    | .ok alternatives =>
      match enrichLoop alts ms with
      | .error e => .error e
      | .ok rest => .ok (enrichOneWith alternatives m :: rest)

/-- Embeds `_enrich_medicine_data`: on any exception the original medicine
list is returned unenriched (no keys added). -/
def enrich_medicine_data (alts : AltOracle) (medicines : List MatchRec) :
    List EnrichedMedicine :=
  match enrichLoop alts medicines with
  | .ok r => r
  | .error _ => medicines.map fun m => ⟨m, none, none, none⟩

/-- Embeds `_extract_medicines`: match → select → enrich for one line. -/
def extract_medicines (search : SearchOracle) (alts : AltOracle) (text : Str) :
    List EnrichedMedicine :=
  enrich_medicine_data alts
    (select_best_medicine_per_ingredient (match_with_database search text))

/-- One step of grouping OCR regions by line number
(`defaultdict(list)` keyed by `line_num`, insertion-ordered). -/
def groupStep (d : List (Nat × List Str)) (r : Str × Nat) :
    List (Nat × List Str) :=
  match dictGet d r.2 with
  | none => d ++ [(r.2, [r.1])]
  | some v => dictSet d r.2 (v ++ [r.1])

/-- Line grouping of `_parse_prescription_text`. -/
def groupByLine (text_regions : List (Str × Nat)) : List (Nat × List Str) :=
  text_regions.foldl groupStep []

/-- The orchestrator's result dict. -/
structure ParseResult where
  medicines : List EnrichedMedicine
  raw_text : Str
deriving Repr, DecidableEq

/-- Embeds `_parse_prescription_text`: group by line, join each line's words,
normalize to katakana, extract per line, aggregate.  The surrounding
try/except re-raises, so the result type keeps the `Except`; the body itself
only composes the (internally error-handling) per-line stages. -/
def parse_prescription_text (search : SearchOracle) (alts : AltOracle)
    (text_regions : List (Str × Nat)) : Except Unit ParseResult :=
  let all_text := (text_regions.map Prod.fst).flatten
  let lines := groupByLine text_regions
  let all_medicines :=
    (lines.map fun g =>
      extract_medicines search alts (normalize_to_katakana g.2.flatten)).flatten
  .ok ⟨all_medicines, all_text⟩

/-- Invariant of the Stage-B dictionary: insertion-ordered keys are distinct
and every stored medicine's ingredient name is its key. -/
def stageBInv (d : List (Str × MatchRec)) : Prop :=
  (d.map Prod.fst).Nodup ∧ ∀ e ∈ d, e.2.ingredient_name = e.1

/-- Preference order of Stage B, reflexively: `beats a b` says a is
preferred over b or ties with it — strictly
higher confidence, or equal confidence and a spec value that is no larger. -/
def beats (a b : MatchRec) : Prop :=
  b.confidence < a.confidence ∨
    (b.confidence = a.confidence ∧
      extract_spec_value a.specification ≤ extract_spec_value b.specification)

/-! ### Concrete fixtures used by witnesses and counterexamples -/

/-- An index record for the enrichment fixtures. -/
def sampleRecA : DBRecord :=
  { medicine_name := toCP "アスピリン錠100mg"
    ingredient_name := toCP "アスピリン"
    specification := toCP "100mg1錠"
    manufacturer := toCP "バイエル薬品"
    medicine_type := toCP "先発品"
    price := mkRat 59 10
    is_similarity_match := none }

/-- A selected medicine with confidence 0.95. -/
def sampleMatchHigh : MatchRec :=
  mkMatch (toCP "アスピリン") sampleRecA (mkRat 95 100)

/-- Candidate for ingredient 成分X with spec "5mg" and confidence 0.80. -/
def med5mg : MatchRec :=
  { medicine_name := toCP "ブランドA錠5mg"
    ingredient_name := toCP "成分X"
    specification := toCP "5mg"
    manufacturer := toCP "社A"
    medicine_type := toCP "後発品"
    price := 5
    confidence := mkRat 8 10
    matched_word := toCP "成分X"
    is_similarity_match := none }

/-- Candidate for ingredient 成分X with spec "10mg" and confidence 0.80. -/
def med10mg : MatchRec :=
  { medicine_name := toCP "ブランドB錠10mg"
    ingredient_name := toCP "成分X"
    specification := toCP "10mg"
    manufacturer := toCP "社B"
    medicine_type := toCP "後発品"
    price := 7
    confidence := mkRat 8 10
    matched_word := toCP "成分X"
    is_similarity_match := none }

/-- A record reachable only through the fuzzy finder for the token
"アアアアアアア" (its names neither equal nor contain the token, but the
truncated medicine name is within edit-distance ratio 6/7 ≥ 0.70). -/
def fuzzyRec : DBRecord :=
  { medicine_name := toCP "アアアアアアイ錠"
    ingredient_name := toCP "イイイイイイイ"
    specification := toCP "5mg1錠"
    manufacturer := toCP "社F"
    medicine_type := toCP "後発品"
    price := 5
    is_similarity_match := none }

/-- An index oracle that answers the exact search (limit 5) with nothing and
the fuzzy prefix search (limit 100) on "アアア" with `fuzzyRec`. -/
def fuzzyOracle : SearchOracle := fun q limit =>
  if limit = 100 then
    (if q = toCP "アアア" then .ok [fuzzyRec] else .ok [])
  else .ok []

/-- The match dict `_match_with_database` emits for the fuzzy-only candidate
`fuzzyRec` and the token "アアアアアアア". -/
def cexEmitted : MatchRec :=
  mkMatch (toCP "アアアアアアア") fuzzyRec (mkRat 7 10)

/-! ## Helper lemmas -/

theorem normChar_of_hiragana {c : Nat} (h1 : 0x3041 ≤ c) (h2 : c ≤ 0x3096) :
    normChar c = c + 0x60 := by
  have hh : isHiragana c = true := by
    simp only [isHiragana, Bool.and_eq_true, decide_eq_true_eq]
    exact ⟨h1, h2⟩
  simp [normChar, hh]

theorem normChar_of_not_hiragana {c : Nat} (h : ¬(0x3041 ≤ c ∧ c ≤ 0x3096)) :
    normChar c = c := by
  have hh : isHiragana c = false := by
    simp only [isHiragana, Bool.and_eq_false_iff, decide_eq_false_iff_not]
    omega
  simp [normChar, hh]

theorem normChar_idem (c : Nat) : normChar (normChar c) = normChar c := by
  by_cases h : 0x3041 ≤ c ∧ c ≤ 0x3096
  · rw [normChar_of_hiragana h.1 h.2, normChar_of_not_hiragana (by omega)]
  · rw [normChar_of_not_hiragana h, normChar_of_not_hiragana h]

/-! ## C9 / C10 — the text normalizer -/

/-- Claim C9: `normalize_to_katakana` maps every code point in U+3041–U+3096
to the code point plus 0x60, leaves every other code point unchanged, and is
a total function (its embedding is defined on every code-point list, with no
error value); applying it twice to an already-katakana (hiragana-free) string
equals applying it once. -/
theorem normalize_to_katakana_characterization :
    ∀ t : Str,
      (normalize_to_katakana t).length = t.length ∧
      (∀ i, i < t.length →
        (normalize_to_katakana t).getD i 0 =
          (if 0x3041 ≤ t.getD i 0 ∧ t.getD i 0 ≤ 0x3096 then t.getD i 0 + 0x60
           else t.getD i 0)) ∧
      ((∀ c ∈ t, ¬(0x3041 ≤ c ∧ c ≤ 0x3096)) →
        normalize_to_katakana (normalize_to_katakana t) =
          normalize_to_katakana t) := by
  intro t
  refine ⟨by simp [normalize_to_katakana], ?_, ?_⟩
  · intro i hi
    rcases h : t[i]? with _ | c
    · rw [List.getElem?_eq_none_iff] at h
      omega
    · have hc' : t.getD i 0 = c := by
        rw [List.getD_eq_getElem?_getD, h]
        rfl
      have hl : (normalize_to_katakana t).getD i 0 = normChar c := by
        rw [List.getD_eq_getElem?_getD]
        simp only [normalize_to_katakana, List.getElem?_map, h]
        rfl
      rw [hl, hc']
      by_cases hc : 0x3041 ≤ c ∧ c ≤ 0x3096
      · rw [if_pos hc]
        exact normChar_of_hiragana hc.1 hc.2
      · rw [if_neg hc]
        exact normChar_of_not_hiragana hc
  · intro hk
    have ht : normalize_to_katakana t = t := by
      simp only [normalize_to_katakana]
      conv_rhs => rw [← List.map_id t]
      exact List.map_congr_left fun c hc => normChar_of_not_hiragana (hk c hc)
    simp only [ht]

/-- Witness for C9 at the concrete katakana string "アスピリン". -/
theorem normalize_to_katakana_characterization_witness :
    normalize_to_katakana (normalize_to_katakana (toCP "アスピリン")) =
      normalize_to_katakana (toCP "アスピリン") :=
  (normalize_to_katakana_characterization (toCP "アスピリン")).2.2 (by decide)

/-! ## C7 — the dosage/spec extractor -/

theorem maxByLen_foldl_acc_or_mem (xs : List Str) :
    ∀ acc : Str,
      (xs.foldl (fun best y => if best.length < y.length then y else best) acc
        = acc) ∨
      (xs.foldl (fun best y => if best.length < y.length then y else best) acc
        ∈ xs) := by
  induction xs with
  | nil => intro acc; left; rfl
  | cons x xs ih =>
    intro acc
    simp only [List.foldl_cons]
    by_cases h : acc.length < x.length
    · rw [if_pos h]
      rcases ih x with h' | h'
      · right; rw [h']; exact List.mem_cons_self ..
      · right; exact List.mem_cons_of_mem _ h'
    · rw [if_neg h]
      rcases ih acc with h' | h'
      · left; exact h'
      · right; exact List.mem_cons_of_mem _ h'

theorem maxByLen_foldl_ge (xs : List Str) :
    ∀ acc : Str,
      acc.length ≤
        (xs.foldl (fun best y => if best.length < y.length then y else best)
          acc).length ∧
      ∀ g ∈ xs,
        g.length ≤
          (xs.foldl (fun best y => if best.length < y.length then y else best)
            acc).length := by
  induction xs with
  | nil => intro acc; exact ⟨Nat.le_refl _, by simp⟩
  | cons x xs ih =>
    intro acc
    simp only [List.foldl_cons]
    by_cases h : acc.length < x.length
    · rw [if_pos h]
      refine ⟨Nat.le_trans (Nat.le_of_lt h) (ih x).1, ?_⟩
      intro g hg
      rcases List.mem_cons.mp hg with rfl | hg'
      · exact (ih g).1
      · exact (ih x).2 g hg'
    · rw [if_neg h]
      refine ⟨(ih acc).1, ?_⟩
      intro g hg
      rcases List.mem_cons.mp hg with rfl | hg'
      · exact Nat.le_trans (Nat.le_of_not_lt h) (ih acc).1
      · exact (ih acc).2 g hg'

theorem maxByLen_mem {xs : List Str} (h : xs ≠ []) : maxByLen xs ∈ xs := by
  cases xs with
  | nil => exact absurd rfl h
  | cons x xs =>
    simp only [maxByLen]
    rcases maxByLen_foldl_acc_or_mem xs x with h' | h'
    · rw [h']; exact List.mem_cons_self ..
    · exact List.mem_cons_of_mem _ h'

theorem maxByLen_longest {xs : List Str} {g : Str} (hg : g ∈ xs) :
    g.length ≤ (maxByLen xs).length := by
  cases xs with
  | nil => cases hg
  | cons x xs =>
    simp only [maxByLen]
    rcases List.mem_cons.mp hg with rfl | hg'
    · exact (maxByLen_foldl_ge xs g).1
    · exact (maxByLen_foldl_ge xs x).2 g hg'

theorem findFirstSpecMatch_leftmost {t : Str} {m : Str}
    (h : findFirstSpecMatch t = some m) :
    ∃ i, matchSpecAt (t.drop i) = some m ∧
      ∀ j < i, matchSpecAt (t.drop j) = none := by
  induction t with
  | nil => simp [findFirstSpecMatch] at h
  | cons c rest ih =>
    rw [findFirstSpecMatch] at h
    rcases h0 : matchSpecAt (c :: rest) with _ | m0
    · simp only [h0] at h
      rcases ih h with ⟨i, hi, hlt⟩
      refine ⟨i + 1, hi, ?_⟩
      intro j hj
      cases j with
      | zero => exact h0
      | succ j' => exact hlt j' (Nat.lt_of_succ_lt_succ hj)
    · simp only [h0, Option.some.injEq] at h
      subst h
      exact ⟨0, by simpa using h0, fun j hj => absurd hj (Nat.not_lt_zero j)⟩

/-- Claim C7: the dosage/spec extractor returns at most one form — a longest
dosage-form string of the fixed list occurring as a substring of the line
(so a line containing both "錠" and "ＯＤ錠" yields only "ＯＤ錠") — and at
most one spec — the leftmost number-plus-unit regex match, half-width
normalized ("１００ｍｇ１錠" yields "100mg") — and absent matches give empty
lists (the embedding is a total function with no error value). -/
theorem dosage_spec_extractor_characterization :
    (∀ t : Str, (extractDosageFormsAndSpecs t).forms.length ≤ 1 ∧
      (extractDosageFormsAndSpecs t).specs.length ≤ 1) ∧
    (∀ t f, (extractDosageFormsAndSpecs t).forms = [f] →
      f ∈ DOSAGE_FORMS ∧ isSub f t = true ∧
      ∀ g ∈ DOSAGE_FORMS, isSub g t = true → g.length ≤ f.length) ∧
    (∀ t s, (extractDosageFormsAndSpecs t).specs = [s] →
      ∃ i m, matchSpecAt (t.drop i) = some m ∧ s = normalizeSpecText m ∧
        ∀ j < i, matchSpecAt (t.drop j) = none) ∧
    extractDosageFormsAndSpecs (toCP "アスピリンＯＤ錠") =
      ⟨[toCP "ＯＤ錠"], []⟩ ∧
    extractDosageFormsAndSpecs (toCP "１００ｍｇ１錠") =
      ⟨[toCP "錠"], [toCP "100mg"]⟩ := by
  refine ⟨?_, ?_, ?_, by decide, by decide⟩
  · intro t
    simp only [extractDosageFormsAndSpecs]
    constructor
    · by_cases he : (DOSAGE_FORMS.filter fun f => isSub f t).isEmpty = true
      · rw [if_pos he]
        rw [List.isEmpty_iff] at he
        simp [he]
      · rw [if_neg he]
        simp
    · rcases hm : findFirstSpecMatch t with _ | m
      · simp only [hm]
        simp
      · simp only [hm]
        simp
  · intro t f hf
    simp only [extractDosageFormsAndSpecs] at hf
    by_cases he : (DOSAGE_FORMS.filter fun f => isSub f t).isEmpty = true
    · rw [if_pos he] at hf
      rw [List.isEmpty_iff] at he
      rw [he] at hf
      cases hf
    · rw [if_neg he] at hf
      have hfe : maxByLen (DOSAGE_FORMS.filter fun f => isSub f t) = f :=
        (List.cons.inj hf).1
      have hne : (DOSAGE_FORMS.filter fun f => isSub f t) ≠ [] := by
        intro hc
        rw [List.isEmpty_iff] at he
        exact he hc
      have hmem := maxByLen_mem hne
      rw [hfe] at hmem
      have hft := List.mem_filter.mp hmem
      refine ⟨hft.1, hft.2, ?_⟩
      intro g hg hsub
      have hgm : g ∈ DOSAGE_FORMS.filter fun f => isSub f t :=
        List.mem_filter.mpr ⟨hg, hsub⟩
      rw [← hfe]
      exact maxByLen_longest hgm
  · intro t s hs
    simp only [extractDosageFormsAndSpecs] at hs
    rcases hm : findFirstSpecMatch t with _ | m
    · simp only [hm] at hs
      cases hs
    · simp only [hm] at hs
      rcases findFirstSpecMatch_leftmost hm with ⟨i, hi, hlt⟩
      exact ⟨i, m, hi, (List.cons.inj hs).1.symm, hlt⟩

/-- Witness for C7: the longest-form conjunct applied at the concrete line
"アスピリンＯＤ錠", whose extracted form is "ＯＤ錠". -/
theorem dosage_spec_extractor_characterization_witness :
    (toCP "ＯＤ錠") ∈ DOSAGE_FORMS ∧
      isSub (toCP "ＯＤ錠") (toCP "アスピリンＯＤ錠") = true ∧
      ∀ g ∈ DOSAGE_FORMS, isSub g (toCP "アスピリンＯＤ錠") = true →
        g.length ≤ (toCP "ＯＤ錠").length :=
  dosage_spec_extractor_characterization.2.1 (toCP "アスピリンＯＤ錠")
    (toCP "ＯＤ錠") (by decide)

/-! ## Dictionary lemmas -/

theorem dictGet_eq_none_iff {κ α : Type} [DecidableEq κ] (d : List (κ × α))
    (k : κ) : dictGet d k = none ↔ k ∉ d.map Prod.fst := by
  induction d with
  | nil => simp [dictGet]
  | cons e d ih =>
    simp only [dictGet, List.findSome?_cons] at *
    by_cases he : e.1 = k
    · simp [he]
    · simp only [if_neg he, List.map_cons, List.mem_cons]
      rw [ih]
      constructor
      · intro h hc
        rcases hc with hc | hc
        · exact he hc.symm
        · exact h hc
      · intro h hc
        exact h (Or.inr hc)

theorem dictSet_keys {κ α : Type} [DecidableEq κ] (d : List (κ × α)) (k : κ)
    (v : α) : (dictSet d k v).map Prod.fst = d.map Prod.fst := by
  simp only [dictSet, List.map_map]
  apply List.map_congr_left
  intro e _
  by_cases he : e.1 = k
  · simp [Function.comp, he]
  · simp [Function.comp, he]

theorem mem_dictSet {κ α : Type} [DecidableEq κ] {d : List (κ × α)} {k : κ}
    {v : α} {e' : κ × α} (h : e' ∈ dictSet d k v) : e' = (k, v) ∨ e' ∈ d := by
  rcases List.mem_map.mp h with ⟨e, he, heq⟩
  by_cases hk : e.1 = k
  · left
    rw [← heq, if_pos hk]
  · right
    rw [← heq, if_neg hk]
    exact he

theorem dictGet_cons {κ α : Type} [DecidableEq κ] (e : κ × α)
    (d : List (κ × α)) (i : κ) :
    dictGet (e :: d) i = if e.1 = i then some e.2 else dictGet d i := by
  simp only [dictGet, List.findSome?_cons]
  by_cases h : e.1 = i
  · simp [h]
  · simp [h]

theorem dictGet_dictSet {κ α : Type} [DecidableEq κ] (d : List (κ × α))
    (k i : κ) (v : α) :
    dictGet (dictSet d k v) i =
      match dictGet d i with
      | none => none
      | some w => if i = k then some v else some w := by
  induction d with
  | nil => simp [dictGet, dictSet]
  | cons e d ih =>
    have hset : dictSet (e :: d) k v =
        (if e.1 = k then (k, v) else e) :: dictSet d k v := rfl
    by_cases hek : e.1 = k
    · by_cases hik : i = k
      · have h1 : e.1 = i := by rw [hek, hik]
        rw [hset, if_pos hek, dictGet_cons, dictGet_cons, if_pos hik.symm,
          if_pos h1]
        simp [hik]
      · have hei : ¬e.1 = i := fun hc => hik (by rw [← hc, hek])
        rw [hset, if_pos hek, dictGet_cons, dictGet_cons,
          if_neg (fun hc : (k, v).1 = i => hik hc.symm), if_neg hei]
        rw [ih]
    · rw [hset, if_neg hek, dictGet_cons, dictGet_cons]
      by_cases hei : e.1 = i
      · have hik : ¬i = k := fun hc => hek (by rw [hei, hc])
        rw [if_pos hei, if_pos hei]
        simp [hik]
      · rw [if_neg hei, if_neg hei]
        exact ih

theorem dictGet_append_single {κ α : Type} [DecidableEq κ] (d : List (κ × α))
    (k i : κ) (v : α) :
    dictGet (d ++ [(k, v)]) i =
      match dictGet d i with
      | none => if i = k then some v else none
      | some w => some w := by
  induction d with
  | nil =>
    rw [List.nil_append, dictGet_cons]
    by_cases hik : i = k
    · rw [if_pos (show (k, v).1 = i from hik.symm)]
      simp [dictGet, hik]
    · rw [if_neg (fun hc : (k, v).1 = i => hik hc.symm)]
      simp [dictGet, hik]
  | cons e d ih =>
    rw [List.cons_append, dictGet_cons, dictGet_cons]
    by_cases hei : e.1 = i
    · rw [if_pos hei, if_pos hei]
    · rw [if_neg hei, if_neg hei]
      exact ih

/-! ## Enrichment lemmas -/

theorem enrichLoop_ok (alts : Str → Str → List DBRecord) :
    ∀ ms : List MatchRec,
      enrichLoop (fun i x => .ok (alts i x)) ms =
        .ok (ms.map fun m =>
          enrichOneWith (alts m.ingredient_name m.medicine_name) m) := by
  intro ms
  induction ms with
  | nil => rfl
  | cons m ms ih => simp [enrichLoop, ih]

theorem enrichLoop_ok_base {alts : AltOracle} :
    ∀ {ms : List MatchRec} {r : List EnrichedMedicine},
      enrichLoop alts ms = .ok r → r.map (fun e => e.base) = ms := by
  intro ms
  induction ms with
  | nil =>
    intro r h
    simp only [enrichLoop] at h
    cases h
    rfl
  | cons m ms ih =>
    intro r h
    simp only [enrichLoop] at h
    rcases ha : alts m.ingredient_name m.medicine_name with e | alternatives
    · rw [ha] at h
      cases h
    · rw [ha] at h
      rcases hl : enrichLoop alts ms with e | rest
      · rw [hl] at h
        cases h
      · rw [hl] at h
        cases h
        simp only [List.map_cons]
        rw [ih hl]
        rfl

theorem enrich_base_map (alts : AltOracle) (ms : List MatchRec) :
    (enrich_medicine_data alts ms).map (fun e => e.base) = ms := by
  unfold enrich_medicine_data
  rcases h : enrichLoop alts ms with e | r
  · simp only [List.map_map]
    conv_rhs => rw [← List.map_id ms]
    apply List.map_congr_left
    intro m _
    rfl
  · exact enrichLoop_ok_base h

/-! ## C3 — the enrichment display-name rule -/

/-- Claim C3: after (successful) enrichment, a medicine's display name is its
medicine name when its confidence is at least 0.90, its medicine name when
confidence is below 0.90 and it has no alternatives, and its ingredient name
when confidence is below 0.90 and alternatives exist. -/
theorem enrichment_display_name :
    ∀ (alts : Str → Str → List DBRecord) (ms : List MatchRec)
      (e : EnrichedMedicine),
      e ∈ enrich_medicine_data (fun i x => .ok (alts i x)) ms →
      (mkRat 9 10 ≤ e.base.confidence →
        e.display_name = some e.base.medicine_name) ∧
      (e.base.confidence < mkRat 9 10 → e.has_alternatives = some false →
        e.display_name = some e.base.medicine_name) ∧
      (e.base.confidence < mkRat 9 10 → e.has_alternatives = some true →
        e.display_name = some e.base.ingredient_name) := by
  intro alts ms e he
  rw [enrich_medicine_data, enrichLoop_ok alts ms] at he
  rcases List.mem_map.mp he with ⟨m, _, rfl⟩
  set A := alts m.ingredient_name m.medicine_name with hA
  refine ⟨?_, ?_, ?_⟩
  · intro hconf
    simp only [enrichOneWith] at hconf ⊢
    rw [if_pos hconf]
  · intro hconf hha
    simp only [enrichOneWith] at hconf hha ⊢
    rw [if_neg (not_le.mpr hconf)]
    have : decide (0 < A.length) = false := Option.some.inj hha
    rw [this]
    simp
  · intro hconf hha
    simp only [enrichOneWith] at hconf hha ⊢
    rw [if_neg (not_le.mpr hconf)]
    have : decide (0 < A.length) = true := Option.some.inj hha
    rw [this]
    simp

/-- Witness for C3: the high-confidence medicine `sampleMatchHigh`
(confidence 0.95), enriched against an index with one alternative, displays
its medicine name. -/
theorem enrichment_display_name_witness :
    (enrichOneWith [sampleRecA] sampleMatchHigh).display_name =
      some (enrichOneWith [sampleRecA] sampleMatchHigh).base.medicine_name :=
  (enrichment_display_name (fun _ _ => [sampleRecA]) [sampleMatchHigh]
    (enrichOneWith [sampleRecA] sampleMatchHigh) (by decide)).1 (by decide)

/-! ## C5 — at most one selected medicine per ingredient -/

theorem stageBInv_step {d : List (Str × MatchRec)} {m : MatchRec}
    (h : stageBInv d) : stageBInv (stageBStep d m) := by
  obtain ⟨hnd, hco⟩ := h
  unfold stageBStep
  rcases hg : dictGet d m.ingredient_name with _ | ex
  all_goals simp only [hg]
  · constructor
    · rw [List.map_append, List.map_cons, List.map_nil, List.nodup_append]
      refine ⟨hnd, List.nodup_singleton _, ?_⟩
      intro a ha hb
      rcases List.mem_singleton.mp hb with rfl
      exact (dictGet_eq_none_iff d m.ingredient_name).mp hg ha
    · intro e he
      rcases List.mem_append.mp he with he | he
      · exact hco e he
      · rcases List.mem_singleton.mp he with rfl
        rfl
  · split
    · constructor
      · rw [dictSet_keys]
        exact hnd
      · intro e he
        rcases mem_dictSet he with rfl | he
        · rfl
        · exact hco e he
    · exact ⟨hnd, hco⟩

theorem stageB_fold_inv (vs : List MatchRec) :
    ∀ d, stageBInv d → stageBInv (vs.foldl stageBStep d) := by
  induction vs with
  | nil => intro d h; exact h
  | cons m vs ih =>
    intro d h
    exact ih (stageBStep d m) (stageBInv_step h)

theorem stageB_values_pairwise {d : List (Str × MatchRec)} (h : stageBInv d) :
    (d.map Prod.snd).Pairwise
      (fun a b => a.ingredient_name ≠ b.ingredient_name) := by
  rw [List.pairwise_map]
  have hk : d.Pairwise (fun a b => a.1 ≠ b.1) := List.pairwise_map.mp h.1
  refine hk.imp_of_mem ?_
  intro a b ha hb hne
  rw [h.2 a ha, h.2 b hb]
  exact hne

/-- Claim C5: after two-stage deduplication, and still after enrichment, no
two medicines of a line's result list share an ingredient name. -/
theorem one_selected_medicine_per_ingredient :
    ∀ (ms : List MatchRec) (alts : AltOracle),
      (select_best_medicine_per_ingredient ms).Pairwise
        (fun a b => a.ingredient_name ≠ b.ingredient_name) ∧
      (enrich_medicine_data alts
          (select_best_medicine_per_ingredient ms)).Pairwise
        (fun a b => a.base.ingredient_name ≠ b.base.ingredient_name) := by
  intro ms alts
  have hsel : (select_best_medicine_per_ingredient ms).Pairwise
      (fun a b => a.ingredient_name ≠ b.ingredient_name) := by
    unfold select_best_medicine_per_ingredient
    split
    · exact List.Pairwise.nil
    · exact stageB_values_pairwise
        (stageB_fold_inv _ [] ⟨List.nodup_nil, by simp⟩)
  refine ⟨hsel, ?_⟩
  have hb := enrich_base_map alts (select_best_medicine_per_ingredient ms)
  rw [← hb] at hsel
  exact List.Pairwise.of_map (fun e => e.base) (fun a b hab => hab) hsel

/-! ## C6 — the fuzzy candidate finder -/

/-- Claim C6: for a token of length ≥ 7 the fuzzy finder queries the index
with the token's first 3 characters at limit 100 and keeps exactly the
candidates whose maximal truncated edit-distance-ratio similarity is ≥ 0.70,
each marked `is_similarity_match = true`; shorter tokens yield nothing. -/
theorem fuzzy_finder_characterization :
    (∀ (search : SearchOracle) (kw : Str), kw.length < 7 →
      search_by_similarity search (mkRat 7 10) kw = []) ∧
    (∀ (search : SearchOracle) (kw : Str) (cs : List DBRecord),
      7 ≤ kw.length → search (kw.take 3) 100 = .ok cs →
      ∀ r, r ∈ search_by_similarity search (mkRat 7 10) kw ↔
        ∃ c ∈ cs,
          mkRat 7 10 ≤
            max (calculate_similarity kw (c.ingredient_name.take kw.length))
              (calculate_similarity kw (c.medicine_name.take kw.length)) ∧
          r = { c with is_similarity_match := some true }) := by
  constructor
  · intro search kw hlen
    rw [search_by_similarity, if_pos hlen]
  · intro search kw cs h7 hok r
    rw [search_by_similarity, if_neg (not_lt.mpr h7), hok]
    rw [List.mem_filterMap]
    constructor
    · rintro ⟨c, hc, hsome⟩
      by_cases hsim : mkRat 7 10 ≤
          max (calculate_similarity kw (c.ingredient_name.take kw.length))
            (calculate_similarity kw (c.medicine_name.take kw.length))
      · rw [if_pos hsim] at hsome
        exact ⟨c, hc, hsim, (Option.some.inj hsome).symm⟩
      · rw [if_neg hsim] at hsome
        cases hsome
    · rintro ⟨c, hc, hsim, rfl⟩
      exact ⟨c, hc, by rw [if_pos hsim]⟩

/-- Witness for C6: the token "アアアアアアア" (length 7) retrieves
`fuzzyRec` through `fuzzyOracle` with truncated similarity 6/7 ≥ 0.70, so the
flagged record is produced. -/
theorem fuzzy_finder_characterization_witness :
    ({ fuzzyRec with is_similarity_match := some true } : DBRecord) ∈
      search_by_similarity fuzzyOracle (mkRat 7 10) (toCP "アアアアアアア") :=
  ((fuzzy_finder_characterization.2 fuzzyOracle (toCP "アアアアアアア")
      [fuzzyRec] (by decide) rfl) _).mpr
    ⟨fuzzyRec, List.mem_singleton.mpr rfl, by decide, rfl⟩

/-! ## Match-loop membership lemmas -/

theorem mem_scoreWord {info : DosageSpecInfo} {w : Str} {rs : List DBRecord}
    {m : MatchRec} :
    m ∈ scoreWord info w rs ↔
      ∃ r ∈ rs, ∃ c, scoreCandidate info w r = some c ∧ m = mkMatch w r c := by
  rw [scoreWord, List.mem_filterMap]
  constructor
  · rintro ⟨r, hr, hsome⟩
    rcases Option.map_eq_some'.mp hsome with ⟨c, hc, hm⟩
    exact ⟨r, hr, c, hc, hm.symm⟩
  · rintro ⟨r, hr, c, hc, rfl⟩
    exact ⟨r, hr, by rw [hc]; rfl⟩

theorem matchLoop_ok_mem {search : SearchOracle} {info : DosageSpecInfo} :
    ∀ {ws : List Str} {ms : List MatchRec},
      matchLoop search info ws = .ok ms → ∀ {m : MatchRec}, m ∈ ms →
      ∃ w ∈ ws, w ∉ STOP_WORDS ∧ ∃ r c,
        scoreCandidate info w r = some c ∧ m = mkMatch w r c := by
  intro ws
  induction ws with
  | nil =>
    intro ms h m hm
    rw [matchLoop] at h
    cases h
    cases hm
  | cons w ws ih =>
    intro ms h m hm
    rw [matchLoop] at h
    by_cases hst : w ∈ STOP_WORDS
    · rw [if_pos hst] at h
      rcases ih h hm with ⟨w', hw', hnst, hrest⟩
      exact ⟨w', List.mem_cons_of_mem _ hw', hnst, hrest⟩
    · rw [if_neg hst] at h
      rcases hs : search w 5 with e | results
      · rw [hs] at h
        cases h
      · rw [hs] at h
        rcases hl : matchLoop search info ws with e | rest
        · simp only [hl] at h
          exact Except.noConfusion h
        · simp only [hl] at h
          cases h
          rcases List.mem_append.mp hm with hm | hm
          · rcases mem_scoreWord.mp hm with ⟨r, _, c, hc, rfl⟩
            exact ⟨w, List.mem_cons_self .., hst, r, c, hc, rfl⟩
          · rcases ih hl hm with ⟨w', hw', hnst, hrest⟩
            exact ⟨w', List.mem_cons_of_mem _ hw', hnst, hrest⟩

theorem match_with_database_mem {search : SearchOracle} {text : Str}
    {m : MatchRec} (hm : m ∈ match_with_database search text) :
    ∃ w ∈ extractWords text, w ∉ STOP_WORDS ∧ ∃ r c,
      scoreCandidate (extractDosageFormsAndSpecs text) w r = some c ∧
      m = mkMatch w r c := by
  rw [match_with_database] at hm
  rcases hl : matchLoop search (extractDosageFormsAndSpecs text)
      (extractWords text) with e | ms
  · rw [hl] at hm
    cases hm
  · rw [hl] at hm
    exact matchLoop_ok_mem hl hm

/-! ## C8 — matched word and similarity flag (corrected) -/

/-- Counterexample to C8 as stated: under `fuzzyOracle` the token
"アアアアアアア" matches `fuzzyRec` only through the fuzzy finder, yet the
emitted match dict has no `is_similarity_match` key at all (modelled as the
field being `none`), so it does not carry an isSimilarityMatch boolean that
is true for this fuzzy-derived pair. -/
theorem matched_word_flag_counterexample :
    match_with_database fuzzyOracle (toCP "アアアアアアア") = [cexEmitted] ∧
      cexEmitted.is_similarity_match ≠ some true := by
  constructor
  · decide
  · decide

/-- Amended C8: every emitted match carries `matched_word` equal to the OCR
token that produced it, but carries no `is_similarity_match` key; the
`is_similarity_match = true` marking lives on the candidate records returned
by the fuzzy finder, upstream of match emission. -/
theorem matched_word_and_similarity_flag :
    (∀ (search : SearchOracle) (text : Str) (m : MatchRec),
      m ∈ match_with_database search text →
      (∃ w ∈ extractWords text, w ∉ STOP_WORDS ∧ m.matched_word = w) ∧
        m.is_similarity_match = none) ∧
    (∀ (search : SearchOracle) (msim : ℚ) (kw : Str) (r : DBRecord),
      r ∈ search_by_similarity search msim kw →
      r.is_similarity_match = some true) := by
  constructor
  · intro search text m hm
    rcases match_with_database_mem hm with ⟨w, hw, hnst, r, c, _, rfl⟩
    exact ⟨⟨w, hw, hnst, rfl⟩, rfl⟩
  · intro search msim kw r hr
    rw [search_by_similarity] at hr
    by_cases hlen : kw.length < 7
    · rw [if_pos hlen] at hr
      cases hr
    · rw [if_neg hlen] at hr
      rcases hs : search (kw.take 3) 100 with e | cs
      · rw [hs] at hr
        cases hr
      · rw [hs] at hr
        rcases List.mem_filterMap.mp hr with ⟨c, _, hsome⟩
        by_cases hsim : msim ≤
            max (calculate_similarity kw (c.ingredient_name.take kw.length))
              (calculate_similarity kw (c.medicine_name.take kw.length))
        · rw [if_pos hsim] at hsome
          rw [← Option.some.inj hsome]
        · rw [if_neg hsim] at hsome
          cases hsome

/-- Witness for the amended C8, at the concrete fuzzy scenario. -/
theorem matched_word_and_similarity_flag_witness :
    ((∃ w ∈ extractWords (toCP "アアアアアアア"), w ∉ STOP_WORDS ∧
        cexEmitted.matched_word = w) ∧
      cexEmitted.is_similarity_match = none) ∧
    ({ fuzzyRec with is_similarity_match := some true } : DBRecord).is_similarity_match = some true :=
  ⟨matched_word_and_similarity_flag.1 fuzzyOracle (toCP "アアアアアアア")
      cexEmitted (by decide),
    matched_word_and_similarity_flag.2 fuzzyOracle (mkRat 7 10)
      (toCP "アアアアアアア") { fuzzyRec with is_similarity_match := some true }
      (by decide)⟩

/-! ## C1 — the four confidence tiers -/

theorem baseConfidence_values {w : Str} {r : DBRecord} {b : ℚ}
    (h : baseConfidence w r = some b) :
    b = 1 ∨ b = mkRat 8 10 ∨ b = mkRat 7 10 := by
  rw [baseConfidence] at h
  by_cases h1 : w = r.medicine_name
  · rw [if_pos h1] at h
    exact Or.inl (Option.some.inj h).symm
  · rw [if_neg h1] at h
    by_cases h2 : w = r.ingredient_name
    · rw [if_pos h2] at h
      exact Or.inr (Or.inl (Option.some.inj h).symm)
    · rw [if_neg h2] at h
      by_cases h3 : (isSub w r.medicine_name || isSub w r.ingredient_name) = true
      · rw [if_pos h3] at h
        exact Or.inr (Or.inr (Option.some.inj h).symm)
      · rw [if_neg h3] at h
        by_cases h4 : truthyFlag r = true
        · rw [if_pos h4] at h
          exact Or.inr (Or.inr (Option.some.inj h).symm)
        · rw [if_neg h4] at h
          exact Option.noConfusion h

theorem scoreCandidate_values {info : DosageSpecInfo} {w : Str} {r : DBRecord}
    {c : ℚ} (h : scoreCandidate info w r = some c) :
    c = mkRat 7 10 ∨ c = mkRat 8 10 ∨ c = mkRat 9 10 ∨ c = 1 := by
  rw [scoreCandidate] at h
  rcases hb : baseConfidence w r with _ | b
  · simp only [hb] at h
    exact Option.noConfusion h
  · simp only [hb] at h
    by_cases hcor : b < 1 ∧ corroborates info r.medicine_name = true
    · rw [if_pos hcor, if_pos (by decide : mkRat 7 10 ≤ mkRat 9 10)] at h
      exact Or.inr (Or.inr (Or.inl (Option.some.inj h).symm))
    · rw [if_neg hcor] at h
      rcases baseConfidence_values hb with rfl | rfl | rfl
      · rw [if_pos (by decide : mkRat 7 10 ≤ (1 : ℚ))] at h
        exact Or.inr (Or.inr (Or.inr (Option.some.inj h).symm))
      · rw [if_pos (by decide : mkRat 7 10 ≤ mkRat 8 10)] at h
        exact Or.inr (Or.inl (Option.some.inj h).symm)
      · rw [if_pos (by decide : mkRat 7 10 ≤ mkRat 7 10)] at h
        exact Or.inl (Option.some.inj h).symm

/-- A tier with base confidence `b < 1` emits `0.90` under corroboration and
`b` otherwise. -/
theorem scoreCandidate_of_base_lt_one {info : DosageSpecInfo} {w : Str}
    {r : DBRecord} {b : ℚ} (hb : baseConfidence w r = some b) (hlt : b < 1)
    (hge : mkRat 7 10 ≤ b) :
    scoreCandidate info w r =
      some (if corroborates info r.medicine_name = true then mkRat 9 10
        else b) := by
  rw [scoreCandidate]
  simp only [hb]
  by_cases hcor : corroborates info r.medicine_name = true
  · have hc1 : b < 1 ∧ corroborates info r.medicine_name = true := ⟨hlt, hcor⟩
    rw [if_pos hc1, if_pos (by decide : mkRat 7 10 ≤ mkRat 9 10), if_pos hcor]
  · have hc1 : ¬(b < 1 ∧ corroborates info r.medicine_name = true) :=
      fun hc => hcor hc.2
    rw [if_neg hc1, if_pos hge, if_neg hcor]

/-- Claim C1: confidence is assigned by exactly four tiers in priority
order — 1.00 for a medicine-name-equal token, else 0.80 for an
ingredient-name-equal token, else 0.70 for a substring of either name, else
0.70 for a fuzzy-only candidate, else the pair is discarded; when the base is
below 1.00 and both extracted form and strength corroborate, the confidence
is reassigned to exactly 0.90 (tier-1 matches are never adjusted); hence
every emitted pair's confidence lies in {0.70, 0.80, 0.90, 1.00}. -/
theorem confidence_tier_characterization :
    (∀ (info : DosageSpecInfo) (w : Str) (r : DBRecord),
      w = r.medicine_name → scoreCandidate info w r = some 1) ∧
    (∀ (info : DosageSpecInfo) (w : Str) (r : DBRecord),
      w ≠ r.medicine_name → w = r.ingredient_name →
      scoreCandidate info w r =
        some (if corroborates info r.medicine_name = true then mkRat 9 10
          else mkRat 8 10)) ∧
    (∀ (info : DosageSpecInfo) (w : Str) (r : DBRecord),
      w ≠ r.medicine_name → w ≠ r.ingredient_name →
      ((isSub w r.medicine_name || isSub w r.ingredient_name) = true ∨
        truthyFlag r = true) →
      scoreCandidate info w r =
        some (if corroborates info r.medicine_name = true then mkRat 9 10
          else mkRat 7 10)) ∧
    (∀ (info : DosageSpecInfo) (w : Str) (r : DBRecord),
      w ≠ r.medicine_name → w ≠ r.ingredient_name →
      isSub w r.medicine_name = false → isSub w r.ingredient_name = false →
      truthyFlag r = false → scoreCandidate info w r = none) ∧
    (∀ (search : SearchOracle) (text : Str) (m : MatchRec),
      m ∈ match_with_database search text →
      m.confidence = mkRat 7 10 ∨ m.confidence = mkRat 8 10 ∨
        m.confidence = mkRat 9 10 ∨ m.confidence = 1) := by
  refine ⟨?_, ?_, ?_, ?_, ?_⟩
  · intro info w r h
    have hb : baseConfidence w r = some 1 := by
      rw [baseConfidence, if_pos h]
    rw [scoreCandidate]
    simp only [hb]
    have hno : ¬((1 : ℚ) < 1 ∧ corroborates info r.medicine_name = true) :=
      fun hc => absurd hc.1 (lt_irrefl 1)
    rw [if_neg hno, if_pos (by decide : mkRat 7 10 ≤ (1 : ℚ))]
  · intro info w r h1 h2
    have hb : baseConfidence w r = some (mkRat 8 10) := by
      rw [baseConfidence, if_neg h1, if_pos h2]
    exact scoreCandidate_of_base_lt_one hb (by decide) (by decide)
  · intro info w r h1 h2 h3
    have hb : baseConfidence w r = some (mkRat 7 10) := by
      rw [baseConfidence, if_neg h1, if_neg h2]
      by_cases hsub : (isSub w r.medicine_name || isSub w r.ingredient_name)
          = true
      · rw [if_pos hsub]
      · rw [if_neg hsub, if_pos (h3.resolve_left hsub)]
    exact scoreCandidate_of_base_lt_one hb (by decide) (by decide)
  · intro info w r h1 h2 h3 h4 h5
    have hb : baseConfidence w r = none := by
      rw [baseConfidence, if_neg h1, if_neg h2,
        if_neg (by rw [h3, h4]; exact Bool.false_ne_true),
        if_neg (by rw [h5]; exact Bool.false_ne_true)]
    rw [scoreCandidate]
    simp only [hb]
  · intro search text m hm
    rcases match_with_database_mem hm with ⟨w, _, _, r, c, hc, rfl⟩
    exact scoreCandidate_values hc

/-- Witness for C1: the token equal to `sampleRecA`'s full medicine name
scores exactly 1.00, and the fuzzy-only pair of the counterexample fixture
scores 0.70. -/
theorem confidence_tier_characterization_witness :
    scoreCandidate ⟨[], []⟩ (toCP "アスピリン錠100mg") sampleRecA = some 1 :=
  confidence_tier_characterization.1 ⟨[], []⟩ (toCP "アスピリン錠100mg")
    sampleRecA (by decide)

/-! ## C2 — Stage-B selection and tie-break -/

theorem beats_refl (a : MatchRec) : beats a a := Or.inr ⟨rfl, le_refl _⟩

theorem beats_trans {a b c : MatchRec} (h1 : beats a b) (h2 : beats b c) :
    beats a c := by
  rcases h1 with h1 | ⟨h1e, h1s⟩
  · rcases h2 with h2 | ⟨h2e, _⟩
    · exact Or.inl (lt_trans h2 h1)
    · exact Or.inl (h2e ▸ h1)
  · rcases h2 with h2 | ⟨h2e, h2s⟩
    · exact Or.inl (h1e ▸ h2)
    · exact Or.inr ⟨h2e.trans h1e, le_trans h1s h2s⟩

theorem beats_of_replaceCond {ex m : MatchRec} (h : replaceCond ex m) :
    beats m ex := by
  rcases h with h | ⟨he, hs⟩
  · exact Or.inl h
  · exact Or.inr ⟨he.symm, le_of_lt hs⟩

theorem beats_of_not_replaceCond {ex m : MatchRec} (h : ¬replaceCond ex m) :
    beats ex m := by
  have h1 := not_or.mp h
  rcases lt_or_eq_of_le (not_lt.mp h1.1) with hlt | heq
  · exact Or.inl hlt
  · exact Or.inr ⟨heq, not_lt.mp fun hc => h1.2 ⟨heq, hc⟩⟩

theorem stageBStep_get_other (d : List (Str × MatchRec)) {m : MatchRec}
    {i : Str} (hi : m.ingredient_name ≠ i) :
    dictGet (stageBStep d m) i = dictGet d i := by
  rw [stageBStep]
  rcases hg : dictGet d m.ingredient_name with _ | ex
  · simp only [hg]
    rw [dictGet_append_single]
    rcases hd : dictGet d i with _ | w
    · simp only [hd]
      rw [if_neg (fun hc : i = m.ingredient_name => hi hc.symm)]
    · simp only [hd]
  · simp only [hg]
    by_cases hrc : replaceCond ex m
    · rw [if_pos hrc, dictGet_dictSet]
      rcases hd : dictGet d i with _ | w
      · simp only [hd]
      · simp only [hd]
        rw [if_neg (fun hc : i = m.ingredient_name => hi hc.symm)]
    · rw [if_neg hrc]

theorem stageBStep_get_self_none {d : List (Str × MatchRec)} {m : MatchRec}
    (hg : dictGet d m.ingredient_name = none) :
    dictGet (stageBStep d m) m.ingredient_name = some m := by
  rw [stageBStep]
  simp only [hg]
  rw [dictGet_append_single]
  simp only [hg]
  rfl

theorem stageBStep_get_self_some {d : List (Str × MatchRec)} {m ex : MatchRec}
    (hg : dictGet d m.ingredient_name = some ex) :
    dictGet (stageBStep d m) m.ingredient_name =
      some (if replaceCond ex m then m else ex) := by
  rw [stageBStep]
  simp only [hg]
  by_cases hrc : replaceCond ex m
  · rw [if_pos hrc, if_pos hrc, dictGet_dictSet]
    simp only [hg]
    rfl
  · rw [if_neg hrc, if_neg hrc, hg]

theorem stageB_fold_get :
    ∀ (vs : List MatchRec) (d : List (Str × MatchRec)) (i : Str)
      (chosen : MatchRec),
      dictGet (vs.foldl stageBStep d) i = some chosen →
      ((chosen ∈ vs ∧ chosen.ingredient_name = i) ∨
        dictGet d i = some chosen) ∧
      (∀ m ∈ vs, m.ingredient_name = i → beats chosen m) ∧
      (∀ w, dictGet d i = some w → beats chosen w) := by
  intro vs
  induction vs with
  | nil =>
    intro d i chosen h
    refine ⟨Or.inr h, by simp, ?_⟩
    intro w hw
    have h' : dictGet d i = some chosen := h
    rw [← Option.some.inj (h'.symm.trans hw)]
    exact beats_refl chosen
  | cons m0 vs ih =>
    intro d i chosen h
    rw [List.foldl_cons] at h
    obtain ⟨hmem, hall, hdict⟩ := ih (stageBStep d m0) i chosen h
    by_cases hi : m0.ingredient_name = i
    · subst hi
      rcases hd : dictGet d m0.ingredient_name with _ | ex
      · have hstep := stageBStep_get_self_none hd
        refine ⟨?_, ?_, ?_⟩
        · rcases hmem with ⟨hm1, hm2⟩ | hmem
          · exact Or.inl ⟨List.mem_cons_of_mem _ hm1, hm2⟩
          · have hce : m0 = chosen := Option.some.inj (hstep.symm.trans hmem)
            subst hce
            exact Or.inl ⟨List.mem_cons_self _ _, rfl⟩
        · intro m hm hmi
          rcases List.mem_cons.mp hm with rfl | hm'
          · exact hdict m hstep
          · exact hall m hm' hmi
        · intro w hw
          exact Option.noConfusion hw
      · have hstep := stageBStep_get_self_some hd
        have hbv : beats (if replaceCond ex m0 then m0 else ex) m0 := by
          by_cases hrc : replaceCond ex m0
          · rw [if_pos hrc]
            exact beats_refl m0
          · rw [if_neg hrc]
            exact beats_of_not_replaceCond hrc
        have hbx : beats (if replaceCond ex m0 then m0 else ex) ex := by
          by_cases hrc : replaceCond ex m0
          · rw [if_pos hrc]
            exact beats_of_replaceCond hrc
          · rw [if_neg hrc]
            exact beats_refl ex
        have hcb : beats chosen (if replaceCond ex m0 then m0 else ex) :=
          hdict _ hstep
        refine ⟨?_, ?_, ?_⟩
        · rcases hmem with ⟨hm1, hm2⟩ | hmem
          · exact Or.inl ⟨List.mem_cons_of_mem _ hm1, hm2⟩
          · have hce : (if replaceCond ex m0 then m0 else ex) = chosen :=
              Option.some.inj (hstep.symm.trans hmem)
            by_cases hrc : replaceCond ex m0
            · rw [if_pos hrc] at hce
              subst hce
              exact Or.inl ⟨List.mem_cons_self _ _, rfl⟩
            · rw [if_neg hrc] at hce
              subst hce
              exact Or.inr rfl
        · intro m hm hmi
          rcases List.mem_cons.mp hm with rfl | hm'
          · exact beats_trans hcb hbv
          · exact hall m hm' hmi
        · intro w hw
          have hew : ex = w := Option.some.inj hw
          subst hew
          exact beats_trans hcb hbx
    · have hstep := stageBStep_get_other d hi
      refine ⟨?_, ?_, ?_⟩
      · rcases hmem with ⟨hm1, hm2⟩ | hmem
        · exact Or.inl ⟨List.mem_cons_of_mem _ hm1, hm2⟩
        · right
          rw [← hstep]
          exact hmem
      · intro m hm hmi
        rcases List.mem_cons.mp hm with rfl | hm'
        · exact absurd hmi hi
        · exact hall m hm' hmi
      · intro w hw
        exact hdict w (by rw [hstep]; exact hw)

theorem stageB_fold_exists :
    ∀ (vs : List MatchRec) (d : List (Str × MatchRec)) (i : Str),
      ((∃ w, dictGet d i = some w) ∨ ∃ m ∈ vs, m.ingredient_name = i) →
      ∃ chosen, dictGet (vs.foldl stageBStep d) i = some chosen := by
  intro vs
  induction vs with
  | nil =>
    intro d i h
    rcases h with ⟨w, hw⟩ | ⟨m, hm, _⟩
    · exact ⟨w, hw⟩
    · cases hm
  | cons m0 vs ih =>
    intro d i h
    rw [List.foldl_cons]
    apply ih
    rcases h with ⟨w, hw⟩ | ⟨m, hm, hmi⟩
    · left
      by_cases hi : m0.ingredient_name = i
      · subst hi
        exact ⟨_, stageBStep_get_self_some hw⟩
      · rw [stageBStep_get_other d hi]
        exact ⟨w, hw⟩
    · rcases List.mem_cons.mp hm with rfl | hm'
      · left
        subst hmi
        rcases hd : dictGet d m.ingredient_name with _ | ex
        · exact ⟨m, stageBStep_get_self_none hd⟩
        · exact ⟨_, stageBStep_get_self_some hd⟩
      · right
        exact ⟨m, hm', hmi⟩

/-- Claim C2: in Stage B (grouping by ingredient name), the entry selected
for an ingredient is one of the group's entries, every other entry of the
group either has strictly lower confidence or ties in confidence with a spec
value no smaller than the selected one's (absent leading number = +∞), every
represented ingredient gets a selection; in particular two candidates for
the same ingredient with specs "5mg" and "10mg" and equal confidence 0.80
select the "5mg" one, in either input order. -/
theorem dedup_stage_b_selection :
    (∀ (vs : List MatchRec) (i : Str) (chosen : MatchRec),
      dictGet (vs.foldl stageBStep []) i = some chosen →
      chosen ∈ vs ∧ chosen.ingredient_name = i ∧
        ∀ m ∈ vs, m.ingredient_name = i →
          m.confidence < chosen.confidence ∨
            (m.confidence = chosen.confidence ∧
              extract_spec_value chosen.specification ≤
                extract_spec_value m.specification)) ∧
    (∀ (vs : List MatchRec) (i : Str),
      (∃ m ∈ vs, m.ingredient_name = i) →
      ∃ chosen, dictGet (vs.foldl stageBStep []) i = some chosen) ∧
    select_best_medicine_per_ingredient [med5mg, med10mg] = [med5mg] ∧
    select_best_medicine_per_ingredient [med10mg, med5mg] = [med5mg] := by
  refine ⟨?_, ?_, by decide, by decide⟩
  · intro vs i chosen h
    obtain ⟨hmem, hall, _⟩ := stageB_fold_get vs [] i chosen h
    rcases hmem with ⟨h1, h2⟩ | habs
    · exact ⟨h1, h2, fun m hm hmi => hall m hm hmi⟩
    · exact Option.noConfusion habs
  · intro vs i hex
    exact stageB_fold_exists vs [] i (Or.inr hex)

/-- Witness for C2: the fold over `[med5mg, med10mg]` selects `med5mg` for
ingredient 成分X, and the selection beats-or-ties both group members. -/
theorem dedup_stage_b_selection_witness :
    med5mg ∈ [med5mg, med10mg] ∧ med5mg.ingredient_name = toCP "成分X" ∧
      ∀ m ∈ [med5mg, med10mg], m.ingredient_name = toCP "成分X" →
        m.confidence < med5mg.confidence ∨
          (m.confidence = med5mg.confidence ∧
            extract_spec_value med5mg.specification ≤
              extract_spec_value m.specification) :=
  dedup_stage_b_selection.1 [med5mg, med10mg] (toCP "成分X") med5mg (by decide)

/-! ## C4 — error containment and per-line isolation -/

/-- With an always-failing index, the match loop never yields matches but
also never lets the failure escape `_match_with_database`. -/
theorem match_with_database_fail (text : Str) :
    match_with_database (fun _ _ => .error ()) text = [] := by
  rw [match_with_database]
  have h : ∀ ws : List Str,
      matchLoop (fun _ _ => .error ()) (extractDosageFormsAndSpecs text) ws
          = .ok [] ∨
        matchLoop (fun _ _ => .error ()) (extractDosageFormsAndSpecs text) ws
          = .error () := by
    intro ws
    induction ws with
    | nil => left; rfl
    | cons w ws ih =>
      rw [matchLoop]
      by_cases hst : w ∈ STOP_WORDS
      · rw [if_pos hst]
        exact ih
      · rw [if_neg hst]
        right
        rfl
  rcases h (extractWords text) with h' | h' <;> rw [h']

/-- With an always-failing alternatives oracle, enrichment falls back to the
original medicines, unenriched. -/
theorem enrich_medicine_data_fail (ms : List MatchRec) :
    enrich_medicine_data (fun _ _ => .error ()) ms =
      ms.map fun m => ⟨m, none, none, none⟩ := by
  cases ms with
  | nil => rfl
  | cons m ms => rfl

/-- Claim C4: the orchestrator always returns the aggregation of every
line's (internally error-handled) extraction, for every behaviour of the
index oracles — so a failure inside one line's processing, which can only
arise from the index calls, never aborts the remaining lines and no
exception escapes the per-line or per-token boundary; in the extreme case of
an index failing on every call, each line still contributes its (empty)
result. -/
theorem per_line_failure_isolation :
    (∀ (search : SearchOracle) (alts : AltOracle)
        (text_regions : List (Str × Nat)),
      parse_prescription_text search alts text_regions =
        .ok ⟨((groupByLine text_regions).map fun g =>
            extract_medicines search alts
              (normalize_to_katakana g.2.flatten)).flatten,
          (text_regions.map Prod.fst).flatten⟩) ∧
    (∀ text : Str,
      extract_medicines (fun _ _ => .error ()) (fun _ _ => .error ()) text
        = []) := by
  constructor
  · intro search alts text_regions
    rfl
  · intro text
    rw [extract_medicines, match_with_database_fail]
    rfl

/-- Claim C10: `normalize_to_katakana` is idempotent on every input string,
because every mapped output code point lies outside the hiragana block. -/
theorem normalize_to_katakana_idempotent :
    ∀ t : Str, normalize_to_katakana (normalize_to_katakana t) =
      normalize_to_katakana t := by
  intro t
  simp only [normalize_to_katakana, List.map_map]
  exact List.map_congr_left fun c _ => normChar_idem c

end RxScanner
